import Mathlib

/-!
Shallow embedding of the access-control ledger in `src/blockchain.py`
(classes `Block` and `Blockchain`), together with proofs checking the
specification's claims about it.

Modelling decisions:
* Python transactions are dicts (grant/revoke) or the plain string
  `"Genesis Block"`; we embed them as the closed variant `Tx`.
* Timestamps and durations are integers (`Int`); the Python code uses
  floats/ints but every property of interest is arithmetic on them.
* `Block.compute_hash` is SHA-256 of a canonical JSON serialisation of the
  five fields `(index, transactions, timestamp, previous_hash, nonce)`.
  We abstract it as an arbitrary function `H : HashFn` of exactly those
  five fields, which captures determinism (the only property the code's
  logic relies on).
* The unbounded `while` loop of `Block.mine_block` is embedded with
  explicit fuel: `mineBlock ... = some b` means the Python loop terminates
  (within `fuel` iterations) and returns, `none` means it has not yet.
  Operations that seal a block therefore return `Option`.
* `datetime.now()` / `time.time()` are passed in as an explicit `now`
  argument at each call.
-/

namespace VPNChain

/-- A transaction stored in a block: the Python code stores either the plain
string `"Genesis Block"` (genesis sentinel, `Tx.str`), an `ACCESS_GRANT`
dict `{type, owner_did, target_did, duration, timestamp, expires_at}`, or an
`ACCESS_REVOKE` dict `{type, owner_did, target_did, timestamp}`. -/
inductive Tx where
  | str (s : String)
  | grant (ownerDid targetDid : String) (duration : Int) (timestamp : Int) (expiresAt : Int)
  | revoke (ownerDid targetDid : String) (timestamp : Int)
deriving DecidableEq, Repr

/-- `Block` from `blockchain.py`: fields set in `Block.__init__`. -/
structure Block where
  index : Nat
  transactions : List Tx
  timestamp : Int
  previousHash : String
  nonce : Nat
  hash : String
deriving DecidableEq, Repr

instance : Inhabited Block :=
  ⟨{ index := 0, transactions := [], timestamp := 0, previousHash := "", nonce := 0, hash := "" }⟩

/-- The digest function: `Block.compute_hash` is SHA-256 over the canonical
JSON of the five content fields; we abstract it as any function of them. -/
def HashFn : Type := Nat → List Tx → Int → String → Nat → String

/-- `Block.compute_hash`: the digest of the block's current content fields. -/
def computeHash (H : HashFn) (b : Block) : String :=
  H b.index b.transactions b.timestamp b.previousHash b.nonce

/-- `Block.__init__`: stores the fields and sets `self.hash = self.compute_hash()`. -/
def mkBlock (H : HashFn) (index : Nat) (txs : List Tx) (ts : Int) (prev : String)
    (nonce : Nat) : Block :=
  { index := index, transactions := txs, timestamp := ts, previousHash := prev,
    nonce := nonce, hash := H index txs ts prev nonce }

/-- The proof-of-work predicate `self.hash[:difficulty] == '0' * difficulty`:
the first `d` characters of the digest are all `'0'`. -/
def powOk (d : Nat) (b : Block) : Bool :=
  b.hash.data.take d == List.replicate d '0'

/-- One iteration of the mining loop body: `self.nonce += 1; self.hash = self.compute_hash()`. -/
def mineStep (H : HashFn) (b : Block) : Block :=
  let b2 : Block := { b with nonce := b.nonce + 1 }
  { b2 with hash := computeHash H b2 }

/-- `Block.mine_block`: loop until the proof-of-work predicate holds,
bounded by `fuel` iterations (`none` = the Python loop is still running). -/
def mineBlock (H : HashFn) (d : Nat) : Nat → Block → Option Block
  | 0, b => if powOk d b then some b else none
  | f + 1, b => if powOk d b then some b else mineBlock H d f (mineStep H b)

/-- `Blockchain` state: `chain`, `difficulty`, `pending_transactions`,
`mining_reward`. -/
structure Blockchain where
  chain : List Block
  difficulty : Nat
  pendingTransactions : List Tx
  miningReward : Nat
deriving DecidableEq, Repr

/-- `Blockchain.create_genesis_block`: if the chain is empty, build
`Block(0, ["Genesis Block"], time.time(), "0")`, mine it, append it. -/
def createGenesisBlock (H : HashFn) (fuel : Nat) (now : Int) (st : Blockchain) :
    Option Blockchain :=
  if st.chain.length = 0 then
    match mineBlock H st.difficulty fuel (mkBlock H 0 [Tx.str "Genesis Block"] now "0" 0) with
    | some g => some { st with chain := st.chain ++ [g] }
    | none => none
  else
    some st

/-- `Blockchain.__init__`: empty chain, difficulty 2, empty pool, reward 1,
then `create_genesis_block()`. -/
def mkBlockchain (H : HashFn) (fuel : Nat) (now : Int) : Option Blockchain :=
  createGenesisBlock H fuel now
    { chain := [], difficulty := 2, pendingTransactions := [], miningReward := 1 }

/-- `Blockchain.get_latest_block`: `self.chain[-1]` (`none` = Python `IndexError`). -/
def getLatestBlock (st : Blockchain) : Option Block :=
  st.chain.getLast?

/-- `Blockchain.add_transaction`: append to the pending pool. -/
def addTransaction (st : Blockchain) (t : Tx) : Blockchain :=
  { st with pendingTransactions := st.pendingTransactions ++ [t] }

/-- `Blockchain.mine_pending_transactions`: early return when the pool is
empty; otherwise build a block at index `len(chain)` from a copy of the pool,
chained to the latest block's hash, mine it, append it, clear the pool.
The `mining_reward_address` argument is accepted and unused, as in the source. -/
def minePendingTransactions (H : HashFn) (fuel : Nat) (now : Int) (st : Blockchain)
    (rewardAddress : String) : Option Blockchain :=
  if st.pendingTransactions.isEmpty then
    some st
  else
    match getLatestBlock st with
    | none => none
    | some latest =>
      match mineBlock H st.difficulty fuel
          (mkBlock H st.chain.length st.pendingTransactions now latest.hash 0) with
      | some b => some { st with chain := st.chain ++ [b], pendingTransactions := [] }
      | none => none

/-- The `ACCESS_GRANT` transaction dict built by `Blockchain.grant_access`:
`expires_at = now + duration`. -/
def mkGrantTx (ownerDid targetDid : String) (duration : Int) (now : Int) : Tx :=
  Tx.grant ownerDid targetDid duration now (now + duration)

/-- `Blockchain.grant_access`: build the grant transaction, add it to the
pool, immediately mine, return the transaction.  There is no duration check
in the source (`duration = int(duration)` only coerces). -/
def grantAccess (H : HashFn) (fuel : Nat) (now : Int) (st : Blockchain)
    (ownerDid targetDid : String) (duration : Int) : Option (Tx × Blockchain) :=
  match minePendingTransactions H fuel now
      (addTransaction st (mkGrantTx ownerDid targetDid duration now)) ownerDid with
  | some st2 => some (mkGrantTx ownerDid targetDid duration now, st2)
  | none => none

/-- The `ACCESS_REVOKE` transaction dict built by `Blockchain.revoke_access`. -/
def mkRevokeTx (ownerDid targetDid : String) (now : Int) : Tx :=
  Tx.revoke ownerDid targetDid now

/-- `Blockchain.revoke_access`: build the revoke transaction, add it to the
pool, immediately mine, return the transaction. -/
def revokeAccess (H : HashFn) (fuel : Nat) (now : Int) (st : Blockchain)
    (ownerDid targetDid : String) : Option (Tx × Blockchain) :=
  match minePendingTransactions H fuel now
      (addTransaction st (mkRevokeTx ownerDid targetDid now)) ownerDid with
  | some st2 => some (mkRevokeTx ownerDid targetDid now, st2)
  | none => none

/-- The two checks `Blockchain.is_chain_valid` runs on each adjacent pair
(`previous_block`, `current_block`). -/
def pairOk (H : HashFn) (p c : Block) : Bool :=
  (c.hash == computeHash H c) && (c.previousHash == p.hash)

/-- The loop of `is_chain_valid`: for `i` in `1 .. len(chain)` check the pair
`(chain[i-1], chain[i])`. -/
def chainLinksOk (H : HashFn) : List Block → Bool
  | [] => true
  | [_] => true
  | p :: c :: rest => pairOk H p c && chainLinksOk H (c :: rest)

/-- `Blockchain.is_chain_valid`. -/
def isChainValid (H : HashFn) (st : Blockchain) : Bool :=
  chainLinksOk H st.chain

/-- The per-transaction test inside `Blockchain.verify_access`'s nested loop:
`some true` = matching unexpired grant (early `return True`), `some false` =
matching revoke (early `return False`), `none` = no early return (the
`isinstance(dict)` guard skips the genesis string; an expired matching grant
falls through and scanning continues). -/
def scanTx (userDid resourceDid : String) (now : Int) (t : Tx) : Option Bool :=
  match t with
  | Tx.grant o g _ _ exp =>
      if o == resourceDid && g == userDid then
        (if now < exp then some true else none)
      else none
  | Tx.revoke o g _ =>
      if o == resourceDid && g == userDid then some false else none
  | Tx.str _ => none

/-- Inner loop of `verify_access`: transactions of one block in stored order. -/
def scanTxList (userDid resourceDid : String) (now : Int) : List Tx → Option Bool
  | [] => none
  | t :: rest =>
    match scanTx userDid resourceDid now t with
    | some v => some v
    | none => scanTxList userDid resourceDid now rest

/-- Outer loop of `verify_access`: blocks in the given order. -/
def scanBlocks (userDid resourceDid : String) (now : Int) : List Block → Option Bool
  | [] => none
  | b :: rest =>
    match scanTxList userDid resourceDid now b.transactions with
    | some v => some v
    | none => scanBlocks userDid resourceDid now rest

/-- `Blockchain.verify_access`: scan `reversed(self.chain)`, transactions of
each block in stored order; `False` when the scan falls through. -/
def verifyAccess (st : Blockchain) (userDid resourceDid : String) (now : Int) : Bool :=
  (scanBlocks userDid resourceDid now st.chain.reverse).getD false

/-- The filter of `Blockchain.get_user_access_grants`: an `ACCESS_GRANT`
whose `owner_did` matches (the genesis string fails the `isinstance` guard). -/
def txIsGrantBy (userDid : String) (t : Tx) : Bool :=
  match t with
  | Tx.grant o _ _ _ _ => o == userDid
  | _ => false

/-- `Blockchain.get_user_access_grants`: collect matching grants scanning the
chain forward, each block's transactions in stored order. -/
def getUserAccessGrants (st : Blockchain) (userDid : String) : List Tx :=
  (st.chain.map fun b => b.transactions.filter (txIsGrantBy userDid)).flatten

/-- States reachable from a freshly constructed ledger by any finite sequence
of completed `grant_access` / `revoke_access` calls. -/
inductive Reach (H : HashFn) : Blockchain → Prop where
  | init : ∀ fuel now st, mkBlockchain H fuel now = some st → Reach H st
  | grant : ∀ st fuel now o g d t st2, Reach H st →
      grantAccess H fuel now st o g d = some (t, st2) → Reach H st2
  | revoke : ∀ st fuel now o g t st2, Reach H st →
      revokeAccess H fuel now st o g = some (t, st2) → Reach H st2

/-! ### Spec-modelled definitions, for comparison with the source functions -/

/-- Modelled from the spec's words (§3 invariant list, checked by
`is_chain_valid` according to the spec and claim C2): for every `i`
(including `i = 0`) recomputing the digest over `chain[i]`'s stored fields
reproduces `chain[i].digest`; for every `i ≥ 1` `chain[i].previous_digest`
equals `chain[i-1].digest`; and `chain[i].index == i` for every `i`. -/
def specChainInvariantsB (H : HashFn) (st : Blockchain) : Bool :=
  (List.range st.chain.length).all fun i =>
    ((st.chain.getD i default).hash == computeHash H (st.chain.getD i default)) &&
    (decide (i = 0) ||
      ((st.chain.getD i default).previousHash == (st.chain.getD (i - 1) default).hash)) &&
    ((st.chain.getD i default).index == i)

/-- The checks `is_chain_valid` actually runs, in the same indexed style as
`specChainInvariantsB`: only for `i ≥ 1`, the digest recomputation and the
linkage check; no genesis-digest check and no index check. -/
def amendedValidB (H : HashFn) (st : Blockchain) : Bool :=
  (List.range st.chain.length).all fun i =>
    decide (i = 0) ||
      (((st.chain.getD i default).hash == computeHash H (st.chain.getD i default)) &&
       ((st.chain.getD i default).previousHash == (st.chain.getD (i - 1) default).hash))

/-- Modelled from the spec's words (the `verify_access` algorithm, clauses
(a) and (b)): the decision a single transaction yields — `some true` for an
`AccessGrant` with `owner_id == resource_id`, `target_id == user_id` and
`expires_at > now`; `some false` for an `AccessRevoke` with the matching
pair; `none` otherwise. -/
def specDecision (userId resourceId : String) (now : Int) (t : Tx) : Option Bool :=
  match t with
  | Tx.grant o g _ _ exp =>
      if o = resourceId ∧ g = userId ∧ exp > now then some true else none
  | Tx.revoke o g _ =>
      if o = resourceId ∧ g = userId then some false else none
  | Tx.str _ => none

/-- Modelled from the spec's words: scan blocks from the most recently
sealed back to genesis, transactions of each block in stored order, and
return the decision of the first transaction yielding one; `false` when the
whole chain yields none. -/
def specVerifyAccess (st : Blockchain) (userId resourceId : String) (now : Int) : Bool :=
  (((st.chain.reverse.map Block.transactions).flatten.findSome?
      (specDecision userId resourceId now)).getD false)

/-- A transaction that is a grant/revoke record (a dict in the source); the
genesis entry is the plain string `"Genesis Block"`, which is not one. -/
def isRecordTx (t : Tx) : Bool :=
  match t with
  | Tx.str _ => false
  | _ => true

/-- The ledger with every non-record (plain string) entry removed from every
block's transaction list. -/
def stripNonRecord (st : Blockchain) : Blockchain :=
  { st with chain :=
      st.chain.map fun b => { b with transactions := b.transactions.filter isRecordTx } }

/-! ### Concrete fixtures

A concrete digest function under which mining succeeds immediately at
difficulty 2, the states a fresh ledger plus one grant or revoke produce
under it, and a corrupted chain for the validator counterexample. -/

/-- A concrete digest function: constantly `"00"`. -/
def H0 : HashFn := fun _ _ _ _ _ => "00"

/-- The genesis block a fresh ledger mines under `H0` at time 0. -/
def g0 : Block :=
  { index := 0, transactions := [Tx.str "Genesis Block"], timestamp := 0,
    previousHash := "0", nonce := 0, hash := "00" }

/-- The fresh ledger state under `H0` at time 0. -/
def st0 : Blockchain :=
  { chain := [g0], difficulty := 2, pendingTransactions := [], miningReward := 1 }

/-- The transaction `grant_access "a" "b" 60` constructs at time 0. -/
def tx1 : Tx := Tx.grant "a" "b" 60 0 60

/-- The block sealing `tx1` under `H0`. -/
def b1 : Block :=
  { index := 1, transactions := [tx1], timestamp := 0,
    previousHash := "00", nonce := 0, hash := "00" }

/-- The ledger after the grant. -/
def st1 : Blockchain :=
  { chain := [g0, b1], difficulty := 2, pendingTransactions := [], miningReward := 1 }

/-- The transaction `revoke_access "a" "b"` constructs at time 0. -/
def rtx1 : Tx := Tx.revoke "a" "b" 0

/-- The block sealing `rtx1` under `H0`. -/
def br1 : Block :=
  { index := 1, transactions := [rtx1], timestamp := 0,
    previousHash := "00", nonce := 0, hash := "00" }

/-- The ledger after the revoke. -/
def str1 : Blockchain :=
  { chain := [g0, br1], difficulty := 2, pendingTransactions := [], miningReward := 1 }

/-- The transaction `grant_access "a" "b" (-5)` constructs at time 0:
`expires_at = 0 + (-5)`. -/
def txNeg : Tx := Tx.grant "a" "b" (-5) 0 (-5)

/-- The block sealing `txNeg` under `H0`. -/
def bNeg : Block :=
  { index := 1, transactions := [txNeg], timestamp := 0,
    previousHash := "00", nonce := 0, hash := "00" }

/-- The ledger after the negative-duration grant. -/
def stNeg : Blockchain :=
  { chain := [g0, bNeg], difficulty := 2, pendingTransactions := [], miningReward := 1 }

/-- A one-block chain whose stored digest does not match its recomputed
digest under `H0` (`"BAD"` instead of `"00"`): corrupted genesis. -/
def badBlock : Block :=
  { index := 0, transactions := [Tx.str "Genesis Block"], timestamp := 0,
    previousHash := "0", nonce := 0, hash := "BAD" }

/-- The ledger state holding only `badBlock`. -/
def badSt : Blockchain :=
  { chain := [badBlock], difficulty := 2, pendingTransactions := [], miningReward := 1 }

/-! ### Lemmas about mining -/

/-- `mineStep` restores the `hash = compute_hash` invariant by construction. -/
theorem mineStep_hash (H : HashFn) (b : Block) :
    (mineStep H b).hash = computeHash H (mineStep H b) := rfl

/-- `mineStep` changes only `nonce` and `hash`. -/
theorem mineStep_frame (H : HashFn) (b : Block) :
    (mineStep H b).index = b.index ∧ (mineStep H b).transactions = b.transactions ∧
    (mineStep H b).timestamp = b.timestamp ∧ (mineStep H b).previousHash = b.previousHash :=
  ⟨rfl, rfl, rfl, rfl⟩

/-- When the mining loop terminates, the returned block satisfies the
proof-of-work predicate and only its `nonce` and `hash` differ from the
candidate it started from. -/
theorem mineBlock_some (H : HashFn) (d : Nat) :
    ∀ (fuel : Nat) (b b' : Block), mineBlock H d fuel b = some b' →
      powOk d b' = true ∧
      b'.index = b.index ∧ b'.transactions = b.transactions ∧
      b'.timestamp = b.timestamp ∧ b'.previousHash = b.previousHash
  | 0, b, b', h => by
      unfold mineBlock at h
      split at h
      · cases h
        exact ⟨by assumption, rfl, rfl, rfl, rfl⟩
      · cases h
  | f + 1, b, b', h => by
      unfold mineBlock at h
      split at h
      · cases h
        exact ⟨by assumption, rfl, rfl, rfl, rfl⟩
      · obtain ⟨hp, h1, h2, h3, h4⟩ := mineBlock_some H d f (mineStep H b) b' h
        exact ⟨hp, h1, h2, h3, h4⟩

/-- When the mining loop terminates and the candidate satisfied the
`hash = compute_hash` invariant, so does the returned block. -/
theorem mineBlock_hashOk (H : HashFn) (d : Nat) :
    ∀ (fuel : Nat) (b b' : Block), b.hash = computeHash H b →
      mineBlock H d fuel b = some b' → b'.hash = computeHash H b'
  | 0, b, b', hb, h => by
      unfold mineBlock at h
      split at h
      · cases h; exact hb
      · cases h
  | f + 1, b, b', hb, h => by
      unfold mineBlock at h
      split at h
      · cases h; exact hb
      · exact mineBlock_hashOk H d f (mineStep H b) b' (mineStep_hash H b) h

/-- A freshly constructed block satisfies `hash = compute_hash`. -/
theorem mkBlock_hash (H : HashFn) (i : Nat) (txs : List Tx) (ts : Int) (prev : String)
    (n : Nat) : (mkBlock H i txs ts prev n).hash = computeHash H (mkBlock H i txs ts prev n) :=
  rfl

/-! ### Lemmas about sealing one transaction -/

/-- Successful `grant_access` unfolded: the returned transaction is the one
constructed, and sealing the one-element pool succeeded. -/
theorem grantAccess_some (H : HashFn) (fuel : Nat) (now : Int) (st st2 : Blockchain)
    (o g : String) (d : Int) (t : Tx)
    (h : grantAccess H fuel now st o g d = some (t, st2)) :
    t = mkGrantTx o g d now ∧
    minePendingTransactions H fuel now (addTransaction st (mkGrantTx o g d now)) o = some st2 := by
  unfold grantAccess at h
  split at h
  · cases h
    exact ⟨rfl, by assumption⟩
  · cases h

/-- Successful `revoke_access` unfolded. -/
theorem revokeAccess_some (H : HashFn) (fuel : Nat) (now : Int) (st st2 : Blockchain)
    (o g : String) (t : Tx)
    (h : revokeAccess H fuel now st o g = some (t, st2)) :
    t = mkRevokeTx o g now ∧
    minePendingTransactions H fuel now (addTransaction st (mkRevokeTx o g now)) o = some st2 := by
  unfold revokeAccess at h
  split at h
  · cases h
    exact ⟨rfl, by assumption⟩
  · cases h

/-- Sealing a single just-added transaction on a state whose pool was empty:
the chain grows by exactly one block, that block carries exactly the one
transaction, satisfies proof of work and the digest invariant, is chained to
the previous head, and the pool is cleared. -/
theorem sealOne_some (H : HashFn) (fuel : Nat) (now : Int) (st st2 : Blockchain)
    (addr : String) (t : Tx)
    (hp : st.pendingTransactions = [])
    (h : minePendingTransactions H fuel now (addTransaction st t) addr = some st2) :
    ∃ latest nb,
      st.chain.getLast? = some latest ∧
      nb.transactions = [t] ∧
      nb.index = st.chain.length ∧
      nb.timestamp = now ∧
      nb.previousHash = latest.hash ∧
      nb.hash = computeHash H nb ∧
      powOk st.difficulty nb = true ∧
      st2 = { st with chain := st.chain ++ [nb], pendingTransactions := [] } := by
  have hpool : (addTransaction st t).pendingTransactions = [t] := by
    simp [addTransaction, hp]
  have hchain : (addTransaction st t).chain = st.chain := rfl
  have hdiff : (addTransaction st t).difficulty = st.difficulty := rfl
  have hmr : (addTransaction st t).miningReward = st.miningReward := rfl
  unfold minePendingTransactions getLatestBlock at h
  rw [hpool, hchain, hdiff] at h
  rw [if_neg (by simp)] at h
  split at h
  · exact absurd h (by simp)
  · rename_i latest hlast
    split at h
    · rename_i nb hmine
      obtain ⟨hpow, hi, htx, hts, hprev⟩ := mineBlock_some H st.difficulty fuel _ nb hmine
      have hhash := mineBlock_hashOk H st.difficulty fuel _ nb (mkBlock_hash H _ _ _ _ _) hmine
      refine ⟨latest, nb, hlast, by simpa [mkBlock] using htx, by simpa [mkBlock] using hi,
        by simpa [mkBlock] using hts, by simpa [mkBlock] using hprev, hhash, hpow, ?_⟩
      cases h
      simp [addTransaction]
    · exact absurd h (by simp)

/-! ### The reachable-state invariant -/

/-- Appending a block that passes the validator's pair checks against the old
head preserves `chainLinksOk`. -/
theorem chainLinksOk_append (H : HashFn) :
    ∀ (l : List Block) (nb : Block), chainLinksOk H l = true →
      (∀ last, l.getLast? = some last → pairOk H last nb = true) →
      chainLinksOk H (l ++ [nb]) = true
  | [], _, _, _ => rfl
  | [a], nb, _, hp => by
      have ha := hp a rfl
      simp [chainLinksOk, ha]
  | a :: b :: rest, nb, hl, hp => by
      simp only [chainLinksOk, Bool.and_eq_true] at hl
      have ih := chainLinksOk_append H (b :: rest) nb hl.2
        (fun last h => hp last (by rw [List.getLast?_cons_cons]; exact h))
      simp only [List.cons_append, chainLinksOk, Bool.and_eq_true]
      exact ⟨hl.1, by simpa using ih⟩

/-- The invariant every reachable ledger state satisfies: empty pool, a
genesis head, and a chain of blocks that satisfy the digest and
proof-of-work invariants, are correctly linked, and carry at least one
transaction each. -/
structure Inv (H : HashFn) (st : Blockchain) : Prop where
  pendingEmpty : st.pendingTransactions = []
  headIndex : st.chain.head?.map Block.index = some 0
  headPrev : st.chain.head?.map Block.previousHash = some "0"
  headTxs : st.chain.head?.map Block.transactions = some [Tx.str "Genesis Block"]
  hashOk : ∀ b ∈ st.chain, b.hash = computeHash H b
  powAll : ∀ b ∈ st.chain, powOk st.difficulty b = true
  linksOk : chainLinksOk H st.chain = true
  txsNonEmpty : ∀ b ∈ st.chain, b.transactions ≠ []

/-- A fresh ledger satisfies the invariant. -/
theorem inv_init (H : HashFn) (fuel : Nat) (now : Int) (st : Blockchain)
    (h : mkBlockchain H fuel now = some st) : Inv H st := by
  unfold mkBlockchain createGenesisBlock at h
  rw [if_pos (by simp)] at h
  split at h
  · rename_i g hmine
    obtain ⟨hpow, hi, htx, _, hprev⟩ := mineBlock_some H _ fuel _ g hmine
    have hhash := mineBlock_hashOk H _ fuel _ g (mkBlock_hash H _ _ _ _ _) hmine
    cases h
    refine ⟨rfl, ?_, ?_, ?_, ?_, ?_, ?_, ?_⟩
    · simpa [mkBlock] using hi
    · simpa [mkBlock] using hprev
    · simpa [mkBlock] using htx
    · intro b hb
      simp only [List.nil_append, List.mem_singleton] at hb
      subst hb; exact hhash
    · intro b hb
      simp only [List.nil_append, List.mem_singleton] at hb
      subst hb; exact hpow
    · rfl
    · intro b hb
      simp only [List.nil_append, List.mem_singleton] at hb
      subst hb
      have : b.transactions = [Tx.str "Genesis Block"] := by simpa [mkBlock] using htx
      simp [this]
  · exact absurd h (by simp)

/-- Sealing one transaction on an invariant state preserves the invariant. -/
theorem inv_seal (H : HashFn) (fuel : Nat) (now : Int) (st st2 : Blockchain)
    (addr : String) (t : Tx) (inv : Inv H st)
    (h : minePendingTransactions H fuel now (addTransaction st t) addr = some st2) :
    Inv H st2 := by
  obtain ⟨latest, nb, hlast, htx, _, _, hprev, hhash, hpow, hst2⟩ :=
    sealOne_some H fuel now st st2 addr t inv.pendingEmpty h
  obtain ⟨g, rest, hchain⟩ : ∃ g rest, st.chain = g :: rest := by
    cases hc : st.chain with
    | nil => rw [hc] at hlast; exact absurd hlast (by simp)
    | cons g rest => exact ⟨g, rest, rfl⟩
  subst hst2
  refine ⟨rfl, ?_, ?_, ?_, ?_, ?_, ?_, ?_⟩
  · simpa [hchain] using inv.headIndex
  · simpa [hchain] using inv.headPrev
  · simpa [hchain] using inv.headTxs
  · intro b hb
    rcases List.mem_append.mp hb with hb | hb
    · exact inv.hashOk b hb
    · rw [List.mem_singleton] at hb; subst hb; exact hhash
  · intro b hb
    rcases List.mem_append.mp hb with hb | hb
    · exact inv.powAll b hb
    · rw [List.mem_singleton] at hb; subst hb; exact hpow
  · refine chainLinksOk_append H st.chain nb inv.linksOk ?_
    intro last hlast2
    rw [hlast] at hlast2
    cases hlast2
    simp [pairOk, hhash, hprev]
  · intro b hb
    rcases List.mem_append.mp hb with hb | hb
    · exact inv.txsNonEmpty b hb
    · rw [List.mem_singleton] at hb; subst hb; simp [htx]

/-- Every reachable ledger state satisfies the invariant. -/
theorem reach_inv (H : HashFn) (st : Blockchain) (h : Reach H st) : Inv H st := by
  induction h with
  | init fuel now st hmk => exact inv_init H fuel now st hmk
  | grant st fuel now o g d t st2 _ hstep ih =>
      exact inv_seal H fuel now st st2 o (mkGrantTx o g d now)
        ih (grantAccess_some H fuel now st st2 o g d t hstep).2
  | revoke st fuel now o g t st2 _ hstep ih =>
      exact inv_seal H fuel now st st2 o (mkRevokeTx o g now)
        ih (revokeAccess_some H fuel now st st2 o g t hstep).2

/-! ### The validator loop in indexed form -/

/-- The validator's recursive pair scan in indexed form. -/
theorem chainLinksOk_iff_pairs (H : HashFn) :
    ∀ l : List Block, chainLinksOk H l = true ↔
      ∀ i, i + 1 < l.length → pairOk H (l.getD i default) (l.getD (i + 1) default) = true
  | [] => by simp [chainLinksOk]
  | [a] => by simp [chainLinksOk]
  | a :: b :: rest => by
      rw [show chainLinksOk H (a :: b :: rest) = (pairOk H a b && chainLinksOk H (b :: rest))
        from rfl]
      rw [Bool.and_eq_true, chainLinksOk_iff_pairs H (b :: rest)]
      constructor
      · rintro ⟨hab, hrest⟩ i hi
        cases i with
        | zero => simpa using hab
        | succ j =>
            have := hrest j (by simp at hi ⊢; omega)
            simpa using this
      · intro hp
        refine ⟨by simpa using hp 0 (by simp), fun j hj => ?_⟩
        have := hp (j + 1) (by simp at hj ⊢; omega)
        simpa using this

/-- The checks `is_chain_valid` runs, in indexed form. -/
theorem amendedValidB_iff_pairs (H : HashFn) (st : Blockchain) :
    amendedValidB H st = true ↔
      ∀ i, i + 1 < st.chain.length →
        pairOk H (st.chain.getD i default) (st.chain.getD (i + 1) default) = true := by
  unfold amendedValidB
  rw [List.all_eq_true]
  constructor
  · intro h i hi
    have hm : i + 1 ∈ List.range st.chain.length := List.mem_range.mpr hi
    have := h (i + 1) hm
    simp only [Bool.or_eq_true, decide_eq_true_eq, Nat.add_sub_cancel] at this
    rcases this with h0 | hck
    · omega
    · simpa [pairOk] using hck
  · intro hp i hi
    rw [List.mem_range] at hi
    cases i with
    | zero => simp
    | succ j =>
        have hpj := hp j (by omega)
        simp only [pairOk, Bool.and_eq_true] at hpj
        simp only [Bool.or_eq_true, decide_eq_true_eq, Nat.add_sub_cancel]
        exact Or.inr (by rw [Bool.and_eq_true]; exact ⟨hpj.1, hpj.2⟩)

/-! ### The access scan in spec form -/

/-- The per-transaction test of the source scan agrees with the
spec-modelled decision function. -/
theorem scanTx_eq_specDecision (u r : String) (now : Int) (t : Tx) :
    scanTx u r now t = specDecision u r now t := by
  cases t with
  | grant o g d ts exp =>
      by_cases ho : o = r <;> by_cases hg : g = u <;> by_cases he : now < exp <;>
        simp [scanTx, specDecision, ho, hg, he, gt_iff_lt]
  | revoke o g ts =>
      by_cases ho : o = r <;> by_cases hg : g = u <;>
        simp [scanTx, specDecision, ho, hg]
  | str s => rfl

/-- The inner loop is `findSome?` of the decision function. -/
theorem scanTxList_eq_findSome (u r : String) (now : Int) :
    ∀ l : List Tx, scanTxList u r now l = l.findSome? (specDecision u r now)
  | [] => rfl
  | t :: rest => by
      rw [List.findSome?_cons]
      rw [show scanTxList u r now (t :: rest) =
        (match scanTx u r now t with
          | some v => some v
          | none => scanTxList u r now rest) from rfl]
      rw [scanTx_eq_specDecision, scanTxList_eq_findSome u r now rest]
      cases specDecision u r now t <;> rfl

/-- The nested loops equal `findSome?` over the flattened transaction list. -/
theorem scanBlocks_eq_findSome (u r : String) (now : Int) :
    ∀ bs : List Block, scanBlocks u r now bs =
      ((bs.map Block.transactions).flatten.findSome? (specDecision u r now))
  | [] => rfl
  | b :: rest => by
      have hr := scanBlocks_eq_findSome u r now rest
      simp only [List.map_cons, List.flatten_cons, List.findSome?_append]
      rw [show scanBlocks u r now (b :: rest) =
        (match scanTxList u r now b.transactions with
          | some v => some v
          | none => scanBlocks u r now rest) from rfl]
      rw [scanTxList_eq_findSome, hr]
      cases b.transactions.findSome? (specDecision u r now) <;> simp [Option.or]

/-! ### Scanning ignores non-record entries -/

/-- The inner loop is unchanged by removing plain-string entries. -/
theorem scanTxList_filter_record (u r : String) (now : Int) :
    ∀ l : List Tx, scanTxList u r now (l.filter isRecordTx) = scanTxList u r now l
  | [] => rfl
  | t :: rest => by
      have ih := scanTxList_filter_record u r now rest
      cases t with
      | str s =>
          rw [List.filter_cons_of_neg (by simp [isRecordTx])]
          rw [ih]
          rfl
      | grant o g d ts exp =>
          rw [List.filter_cons_of_pos (by simp [isRecordTx])]
          rw [show ∀ l2, scanTxList u r now (Tx.grant o g d ts exp :: l2) =
            (match scanTx u r now (Tx.grant o g d ts exp) with
              | some v => some v
              | none => scanTxList u r now l2) from fun _ => rfl]
          rw [ih]
          rfl
      | revoke o g ts =>
          rw [List.filter_cons_of_pos (by simp [isRecordTx])]
          rw [show ∀ l2, scanTxList u r now (Tx.revoke o g ts :: l2) =
            (match scanTx u r now (Tx.revoke o g ts) with
              | some v => some v
              | none => scanTxList u r now l2) from fun _ => rfl]
          rw [ih]
          rfl

/-- The outer loop is unchanged by removing plain-string entries from every
block. -/
theorem scanBlocks_filter_record (u r : String) (now : Int) :
    ∀ bs : List Block, scanBlocks u r now
        (bs.map fun b => { b with transactions := b.transactions.filter isRecordTx }) =
      scanBlocks u r now bs
  | [] => rfl
  | b :: rest => by
      have ih := scanBlocks_filter_record u r now rest
      simp only [List.map_cons]
      rw [show ∀ b2 bs2, scanBlocks u r now (b2 :: bs2) =
        (match scanTxList u r now b2.transactions with
          | some v => some v
          | none => scanBlocks u r now bs2) from fun _ _ => rfl]
      rw [show ({ b with transactions := b.transactions.filter isRecordTx } : Block).transactions
        = b.transactions.filter isRecordTx from rfl]
      rw [scanTxList_filter_record, ih]
      rfl

/-- Filtering for matching grants is unchanged by first removing
plain-string entries. -/
theorem filter_record_grant (u : String) :
    ∀ l : List Tx, (l.filter isRecordTx).filter (txIsGrantBy u) = l.filter (txIsGrantBy u)
  | [] => rfl
  | t :: rest => by
      have ih := filter_record_grant u rest
      cases t <;> simp [isRecordTx, txIsGrantBy, List.filter_cons, ih]

/-! ### Reachable concrete states -/

/-- A fresh ledger under `H0` is `st0`. -/
theorem mk_st0 : mkBlockchain H0 0 0 = some st0 := by decide

/-- `st0` is reachable. -/
theorem reach_st0 : Reach H0 st0 := Reach.init 0 0 st0 mk_st0

/-- The concrete grant on `st0` succeeds and yields `st1`. -/
theorem grant_st0 : grantAccess H0 0 0 st0 "a" "b" 60 = some (tx1, st1) := by decide

/-- `st1` is reachable. -/
theorem reach_st1 : Reach H0 st1 :=
  Reach.grant st0 0 0 "a" "b" 60 tx1 st1 reach_st0 grant_st0

/-- The concrete revoke on `st0` succeeds and yields `str1`. -/
theorem revoke_st0 : revokeAccess H0 0 0 st0 "a" "b" = some (rtx1, str1) := by decide

/-- Decomposing a successful construction: the state holds exactly one mined
genesis block carrying the `"Genesis Block"` string. -/
theorem mkBlockchain_some (H : HashFn) (fuel : Nat) (now : Int) (st : Blockchain)
    (h : mkBlockchain H fuel now = some st) :
    ∃ g, st = { chain := [g], difficulty := 2,
                pendingTransactions := [], miningReward := 1 } ∧
      g.transactions = [Tx.str "Genesis Block"] := by
  unfold mkBlockchain createGenesisBlock at h
  rw [if_pos (by simp)] at h
  split at h
  · rename_i g hmine
    obtain ⟨_, _, htx, _, _⟩ := mineBlock_some H _ fuel _ g hmine
    cases h
    exact ⟨g, by simp, by simpa [mkBlock] using htx⟩
  · exact absurd h (by simp)

/-! ### The claims -/

/-- Claim C1, counterexample: `grant_access` with a negative duration does
not fail — there is no `InvalidDuration` check anywhere in
`Blockchain.grant_access` — and instead the call succeeds, seals a block and
returns the constructed (already-expired) grant. -/
theorem claim1_counterexample :
    grantAccess H0 0 0 st0 "a" "b" (-5) = some (txNeg, stNeg) ∧
    stNeg.chain.length = st0.chain.length + 1 := by decide

/-- Claim C1 (amended): `grant_access` performs no duration validation: for
every integer `duration_seconds`, negative included, whenever the sealing
loop terminates the call returns the constructed `AccessGrant` transaction
with `expires_at = issued_at + duration_seconds`; no `InvalidDuration` error
exists. -/
theorem claim1_no_duration_check (H : HashFn) (fuel : Nat) (now : Int)
    (st st2 : Blockchain) (o g : String) (d : Int) (t : Tx)
    (h : grantAccess H fuel now st o g d = some (t, st2)) :
    t = Tx.grant o g d now (now + d) := by
  have := (grantAccess_some H fuel now st st2 o g d t h).1
  simpa [mkGrantTx] using this

/-- Witness for the amended claim C1, at `duration_seconds = -5`. -/
theorem claim1_no_duration_check_witness :
    txNeg = Tx.grant "a" "b" (-5) 0 (0 + (-5)) :=
  claim1_no_duration_check H0 0 0 st0 stNeg "a" "b" (-5) txNeg (by decide)

/-- Claim C2, counterexample: `is_chain_valid` returns `true` on a chain
whose genesis block's stored digest does not match its recomputed digest, a
state on which the spec's §3 invariants fail — the validator's loop starts
at index 1, so it never recomputes the genesis digest (and never checks
`chain[i].index == i` either), refuting the claimed equivalence. -/
theorem claim2_counterexample :
    isChainValid H0 badSt = true ∧ specChainInvariantsB H0 badSt = false := by decide

/-- Claim C2 (amended): `is_chain_valid()` returns true iff for every
`i ≥ 1` recomputing the digest over `chain[i]`'s stored fields reproduces
`chain[i].digest` and `chain[i].previous_digest` equals `chain[i-1].digest`;
it checks neither the genesis block's digest nor any block's index. It is
embedded as a pure function, so it never mutates the ledger. -/
theorem claim2_validator_checks (H : HashFn) (st : Blockchain) :
    isChainValid H st = true ↔ amendedValidB H st = true :=
  (chainLinksOk_iff_pairs H st.chain).trans (amendedValidB_iff_pairs H st).symm

/-- Claim C3: `verify_access` scans blocks from the most recently sealed
back to genesis, each block's transactions in stored insertion order, and
returns the decision of the first transaction matching the
`(resource_id, user_id)` pair — `true` for an unexpired grant
(`expires_at > now`), `false` for a revoke; an expired matching grant is not
a match and scanning continues past it; `false` when the whole chain
(including a never-mentioned pair) yields no match. -/
theorem claim3_verify_access_algorithm (st : Blockchain) (u r : String) (now : Int) :
    verifyAccess st u r now = specVerifyAccess st u r now := by
  unfold verifyAccess specVerifyAccess
  rw [scanBlocks_eq_findSome]

/-- Claim C4: after every finite sequence of completed
`grant_access`/`revoke_access` calls on a freshly constructed ledger,
`is_chain_valid()` returns true. -/
theorem claim4_chain_valid (H : HashFn) (st : Blockchain) (h : Reach H st) :
    isChainValid H st = true :=
  (reach_inv H st h).linksOk

/-- Witness for claim C4, on the fresh-ledger-plus-one-grant state. -/
theorem claim4_chain_valid_witness : isChainValid H0 st1 = true :=
  claim4_chain_valid H0 st1 reach_st1

/-- Claim C5: every sealed block of a reachable chain (genesis included)
satisfies the proof-of-work predicate — its digest starts with `difficulty`
copies of `'0'` — and its stored digest equals the digest recomputed over
its stored fields; reachability presumes each sealing loop terminated. -/
theorem claim5_proof_of_work (H : HashFn) (st : Blockchain) (b : Block)
    (h : Reach H st) (hb : b ∈ st.chain) :
    powOk st.difficulty b = true ∧ b.hash = computeHash H b :=
  ⟨(reach_inv H st h).powAll b hb, (reach_inv H st h).hashOk b hb⟩

/-- Witness for claim C5, on the block sealed by the concrete grant. -/
theorem claim5_proof_of_work_witness :
    powOk st1.difficulty b1 = true ∧ b1.hash = computeHash H0 b1 :=
  claim5_proof_of_work H0 st1 b1 reach_st1 (by decide)

/-- Claim C6: on every reachable state the pending pool is empty before a
call, and each completed `grant_access` / `revoke_access` call grows the
chain by exactly one block, that block carries exactly the one transaction
the call constructed, and the pool is empty again afterwards. -/
theorem claim6_atomic_append_seal (H : HashFn) (st stG stR : Blockchain)
    (fuelG fuelR : Nat) (nowG nowR : Int) (o g : String) (d : Int) (tG tR : Tx)
    (hr : Reach H st)
    (hG : grantAccess H fuelG nowG st o g d = some (tG, stG))
    (hR : revokeAccess H fuelR nowR st o g = some (tR, stR)) :
    st.pendingTransactions = [] ∧
    stG.chain.length = st.chain.length + 1 ∧
    stG.chain.getLast?.map Block.transactions = some [tG] ∧
    stG.pendingTransactions = [] ∧
    stR.chain.length = st.chain.length + 1 ∧
    stR.chain.getLast?.map Block.transactions = some [tR] ∧
    stR.pendingTransactions = [] := by
  have inv := reach_inv H st hr
  obtain ⟨htG, hmineG⟩ := grantAccess_some H fuelG nowG st stG o g d tG hG
  obtain ⟨_, nbG, _, htxG, _, _, _, _, _, hstG⟩ :=
    sealOne_some H fuelG nowG st stG o _ inv.pendingEmpty hmineG
  obtain ⟨htR, hmineR⟩ := revokeAccess_some H fuelR nowR st stR o g tR hR
  obtain ⟨_, nbR, _, htxR, _, _, _, _, _, hstR⟩ :=
    sealOne_some H fuelR nowR st stR o _ inv.pendingEmpty hmineR
  subst hstG hstR
  refine ⟨inv.pendingEmpty, by simp, ?_, rfl, by simp, ?_, rfl⟩
  · rw [show ({ st with chain := st.chain ++ [nbG], pendingTransactions := [] } :
      Blockchain).chain = st.chain ++ [nbG] from rfl]
    rw [List.getLast?_concat]
    simp [htxG, htG]
  · rw [show ({ st with chain := st.chain ++ [nbR], pendingTransactions := [] } :
      Blockchain).chain = st.chain ++ [nbR] from rfl]
    rw [List.getLast?_concat]
    simp [htxR, htR]

/-- Witness for claim C6, with the concrete grant and revoke on `st0`. -/
theorem claim6_atomic_append_seal_witness :
    st0.pendingTransactions = [] ∧
    st1.chain.length = st0.chain.length + 1 ∧
    st1.chain.getLast?.map Block.transactions = some [tx1] ∧
    st1.pendingTransactions = [] ∧
    str1.chain.length = st0.chain.length + 1 ∧
    str1.chain.getLast?.map Block.transactions = some [rtx1] ∧
    str1.pendingTransactions = [] :=
  claim6_atomic_append_seal H0 st0 st1 str1 0 0 0 0 "a" "b" 60 tx1 rtx1
    reach_st0 grant_st0 revoke_st0

/-- Claim C7: on every reachable state `chain[0]` is the genesis block —
index 0, `previous_digest` the sentinel `"0"`, carrying the genesis sentinel
transaction — and completed `grant_access` / `revoke_access` calls leave
`chain[0]` unchanged (the head block of the new chain is the same block). -/
theorem claim7_genesis_immutable (H : HashFn) (st stG stR : Blockchain)
    (fuelG fuelR : Nat) (nowG nowR : Int) (o g : String) (d : Int) (tG tR : Tx)
    (hr : Reach H st)
    (hG : grantAccess H fuelG nowG st o g d = some (tG, stG))
    (hR : revokeAccess H fuelR nowR st o g = some (tR, stR)) :
    st.chain.head?.map Block.index = some 0 ∧
    st.chain.head?.map Block.previousHash = some "0" ∧
    st.chain.head?.map Block.transactions = some [Tx.str "Genesis Block"] ∧
    stG.chain.head? = st.chain.head? ∧
    stR.chain.head? = st.chain.head? := by
  have inv := reach_inv H st hr
  obtain ⟨a, rest, hchain⟩ : ∃ a rest, st.chain = a :: rest := by
    cases hc : st.chain with
    | nil =>
        have := inv.headIndex
        rw [hc] at this
        exact absurd this (by simp)
    | cons a rest => exact ⟨a, rest, rfl⟩
  obtain ⟨_, hmineG⟩ := grantAccess_some H fuelG nowG st stG o g d tG hG
  obtain ⟨_, nbG, _, _, _, _, _, _, _, hstG⟩ :=
    sealOne_some H fuelG nowG st stG o _ inv.pendingEmpty hmineG
  obtain ⟨_, hmineR⟩ := revokeAccess_some H fuelR nowR st stR o g tR hR
  obtain ⟨_, nbR, _, _, _, _, _, _, _, hstR⟩ :=
    sealOne_some H fuelR nowR st stR o _ inv.pendingEmpty hmineR
  subst hstG hstR
  exact ⟨inv.headIndex, inv.headPrev, inv.headTxs, by simp [hchain], by simp [hchain]⟩

/-- Witness for claim C7, with the concrete grant and revoke on `st0`. -/
theorem claim7_genesis_immutable_witness :
    st0.chain.head?.map Block.index = some 0 ∧
    st0.chain.head?.map Block.previousHash = some "0" ∧
    st0.chain.head?.map Block.transactions = some [Tx.str "Genesis Block"] ∧
    st1.chain.head? = st0.chain.head? ∧
    str1.chain.head? = st0.chain.head? :=
  claim7_genesis_immutable H0 st0 st1 str1 0 0 0 0 "a" "b" 60 tx1 rtx1
    reach_st0 grant_st0 revoke_st0

/-- Claim C8: a grant with `duration_seconds = 60` issued at `now` on a
fresh ledger has `expires_at = issued_at + 60`; `verify_access` for the pair
returns true at `now + 59` and false at `now + 61` (the comparison
`expires_at > now` is strict). -/
theorem claim8_expiry_boundary (H : HashFn) (fuel0 fuel : Nat) (t0 now : Int)
    (o g : String) (stF st2 : Blockchain) (t : Tx)
    (h0 : mkBlockchain H fuel0 t0 = some stF)
    (h : grantAccess H fuel now stF o g 60 = some (t, st2)) :
    t = Tx.grant o g 60 now (now + 60) ∧
    verifyAccess st2 g o (now + 59) = true ∧
    verifyAccess st2 g o (now + 61) = false := by
  obtain ⟨gB, hstF, hgtx⟩ := mkBlockchain_some H fuel0 t0 stF h0
  obtain ⟨ht, hmine⟩ := grantAccess_some H fuel now stF st2 o g 60 t h
  subst hstF
  obtain ⟨latest, nb, hlast, htx, _, _, _, _, _, hst2⟩ :=
    sealOne_some H fuel now _ st2 o _ rfl hmine
  have hchain2 : st2.chain = [gB, nb] := by rw [hst2]; rfl
  have htval : t = Tx.grant o g 60 now (now + 60) := by simpa [mkGrantTx] using ht
  refine ⟨htval, ?_, ?_⟩
  · simp only [verifyAccess, hchain2]
    rw [show ([gB, nb] : List Block).reverse = [nb, gB] from rfl]
    simp [scanBlocks, scanTxList, scanTx, htx, mkGrantTx, hgtx,
      show now + 59 < now + 60 by omega]
  · simp only [verifyAccess, hchain2]
    rw [show ([gB, nb] : List Block).reverse = [nb, gB] from rfl]
    simp [scanBlocks, scanTxList, scanTx, htx, mkGrantTx, hgtx,
      show ¬(now + 61 < now + 60) by omega]

/-- Witness for claim C8, with the concrete grant on the fresh ledger. -/
theorem claim8_expiry_boundary_witness :
    tx1 = Tx.grant "a" "b" 60 0 (0 + 60) ∧
    verifyAccess st1 "b" "a" (0 + 59) = true ∧
    verifyAccess st1 "b" "a" (0 + 61) = false :=
  claim8_expiry_boundary H0 0 0 0 0 "a" "b" st0 st1 tx1 mk_st0 grant_st0

/-- Claim C9: the genesis block's transaction list holds the plain string
`"Genesis Block"`, and both queries are total functions over it: the
record-type guard (`isinstance(transaction, dict)` in the source, the
`Tx.str` case here) makes every non-record entry inert — removing every
such entry from every block changes neither `verify_access` nor
`get_user_access_grants`, on any chain state and any input. -/
theorem claim9_genesis_string_inert (st : Blockchain) (u r : String) (now : Int) :
    verifyAccess st u r now = verifyAccess (stripNonRecord st) u r now ∧
    getUserAccessGrants st u = getUserAccessGrants (stripNonRecord st) u := by
  constructor
  · unfold verifyAccess
    rw [show (stripNonRecord st).chain = st.chain.map
      (fun b => { b with transactions := b.transactions.filter isRecordTx }) from rfl]
    rw [← List.map_reverse, scanBlocks_filter_record]
  · unfold getUserAccessGrants
    rw [show (stripNonRecord st).chain = st.chain.map
      (fun b => { b with transactions := b.transactions.filter isRecordTx }) from rfl]
    rw [List.map_map]
    have hfun : ((fun b => b.transactions.filter (txIsGrantBy u)) : Block → List Tx) =
        ((fun b => b.transactions.filter (txIsGrantBy u)) ∘
          fun b => { b with transactions := b.transactions.filter isRecordTx }) := by
      funext b
      simp only [Function.comp]
      exact (filter_record_grant u b.transactions).symm
    conv_lhs => rw [hfun]

/-- Claim C10: `mine_pending_transactions` on an empty pool is a no-op — it
returns with the state (chain and pool) unchanged, appending no block — and
consequently every block of a reachable chain carries a non-empty
transaction list. -/
theorem claim10_empty_pool_noop (H : HashFn) (st stE : Blockchain) (fuel : Nat)
    (now : Int) (addr : String) (b : Block) (hr : Reach H st)
    (hp : stE.pendingTransactions = []) (hb : b ∈ st.chain) :
    minePendingTransactions H fuel now stE addr = some stE ∧ b.transactions ≠ [] := by
  constructor
  · unfold minePendingTransactions
    rw [if_pos (by simp [hp])]
  · exact (reach_inv H st hr).txsNonEmpty b hb

/-- Witness for claim C10, on the fresh ledger state. -/
theorem claim10_empty_pool_noop_witness :
    minePendingTransactions H0 5 7 st0 "z" = some st0 ∧ g0.transactions ≠ [] :=
  claim10_empty_pool_noop H0 st0 st0 5 7 "z" g0 reach_st0 rfl (by decide)

end VPNChain
